import Mathlib

/-!
Verification development for the queryosity research-search CLI
(src/queryosity.py).  The core of the program is `gemini_scholar_search`:
it builds a prompt, calls a generation backend, and parses the reply with
the regular expression

  \d+\.\s\[(.*?)\]\((.*?)\)\s*\n\*\*Relevance:\*\*\s*(\d+)/10\n\*\*Abstract:\*\*\s*(.*?)\n

under re.DOTALL, via findall (leftmost, non-overlapping).  We embed the
matcher for this fixed pattern as a backtracking scanner over `List Char`
with Python's quantifier semantics (lazy `.*?` tries shortest first,
greedy `\s*` / `\d+` try longest first, sequencing backtracks through
`orO`).  The whitespace class (`\s` of a str pattern, and the set
`str.strip()` removes) is encoded exactly (`pyWS`); the digit class is
modelled as its ASCII subset `[0-9]`, which is exact on ASCII text, and
the theorems whose truth depends on where `\d` can match restrict the
surrounding non-grammar text to ASCII (see `isDig`, `SegOK`).
The surrounding pipeline (error fallback record, Markdown/JSON/CSV
formatting, sorting in `main`) is embedded directly from the source.
-/

abbrev Chars := List Char

/-- Python's whitespace: the exact set recognized by `Py_UNICODE_ISSPACE`,
which is both what `\s` matches in a str pattern (no `re.ASCII`) and what
`str.strip()` removes: 0x09-0x0D, 0x1C-0x20 (the information separators
and space), NEL (0x85), NBSP (0xA0), OGHAM SPACE (0x1680), the Unicode
spaces 0x2000-0x200A, LINE/PARAGRAPH SEPARATOR (0x2028/0x2029), NARROW
NBSP (0x202F), MMSP (0x205F) and IDEOGRAPHIC SPACE (0x3000). -/
def pyWS (c : Char) : Bool :=
  (9 ≤ c.toNat && c.toNat ≤ 13) || (28 ≤ c.toNat && c.toNat ≤ 32) ||
  c.toNat = 133 || c.toNat = 160 || c.toNat = 5760 ||
  (8192 ≤ c.toNat && c.toNat ≤ 8202) || c.toNat = 8232 || c.toNat = 8233 ||
  c.toNat = 8239 || c.toNat = 8287 || c.toNat = 12288

/-- The ASCII decimal digits.  A str pattern's `\d` matches every Unicode
decimal digit (category Nd), of which these are the ASCII subset — and the
only ASCII members, so on ASCII text this class is exact.  Theorems that
quantify over text outside the grammar's own matches therefore restrict
that text to ASCII (see `SegOK`); the digit fields of a canonical block
(`Canon`) are restricted to ASCII digits, which real `\d` also matches. -/
def isDig (c : Char) : Bool := 48 ≤ c.toNat && c.toNat ≤ 57

/-- `int()` applied to a string of decimal digits. -/
def digitsVal (l : Chars) : Nat := l.foldl (fun a c => a * 10 + (c.toNat - 48)) 0

/-- Python `str.strip()` (ASCII whitespace): drop leading and trailing whitespace. -/
def pyStrip (l : Chars) : Chars := ((l.dropWhile pyWS).reverse.dropWhile pyWS).reverse

/-- `str.strip()` lifted to `String`. -/
def strS (s : String) : String := String.mk (pyStrip s.data)

/-- First-success choice, the backtracking priority of a regex engine. -/
def orO : Option α → Option α → Option α
  | some r, _ => some r
  | none, b => b

/-- Literal atom: consume exactly `l`, then continue. -/
def litP : Chars → (Chars → Option α) → Chars → Option α
  | [], κ, s => κ s
  | _ :: _, _, [] => none
  | c :: l, κ, d :: s => if c = d then litP l κ s else none

/-- Single-character class atom. -/
def oneP (p : Char → Bool) (κ : Chars → Option α) : Chars → Option α
  | [] => none
  | c :: s => if p c then κ s else none

/-- Greedy `p*`: consume as much as possible first, backtracking on failure. -/
def starG (p : Char → Bool) (κ : Chars → Option α) : Chars → Option α
  | [] => κ []
  | c :: s => if p c then orO (starG p κ s) (κ (c :: s)) else κ (c :: s)

/-- Lazy `(.*?)` under DOTALL: try the shortest capture first, growing on
failure; the continuation receives the capture and the rest. -/
def lazyA (κ : Chars → Chars → Option α) : Chars → Chars → Option α
  | acc, [] => κ acc []
  | acc, c :: s => orO (κ acc (c :: s)) (lazyA κ (acc ++ [c]) s)

/-- Greedy continuation of `(\d+)` after its first digit. -/
def digitsG (κ : Chars → Chars → Option α) : Chars → Chars → Option α
  | acc, [] => κ acc []
  | acc, c :: s => if isDig c then orO (digitsG κ (acc ++ [c]) s) (κ acc (c :: s)) else κ acc (c :: s)

/-- Greedy `(\d+)` (at least one digit), with backtracking. -/
def digitsP (κ : Chars → Chars → Option α) : Chars → Option α
  | [] => none
  | c :: s => if isDig c then digitsG κ [c] s else none

/-- The literal `**Relevance:**` of the pattern. -/
def litRel : Chars := ['*', '*', 'R', 'e', 'l', 'e', 'v', 'a', 'n', 'c', 'e', ':', '*', '*']

/-- The literal `/10\n**Abstract:**` of the pattern. -/
def litAbs : Chars :=
  ['/', '1', '0', '\n', '*', '*', 'A', 'b', 's', 't', 'r', 'a', 'c', 't', ':', '*', '*']

abbrev Caps := Chars × Chars × Chars × Chars

/-- Stage 8 of the pattern, `\s*(.*?)\n` after `**Abstract:**`: the
abstract capture and the final newline close the match. -/
def mAbstract (title url score : Chars) : Chars → Option (Caps × Chars) :=
  starG pyWS (lazyA (fun ab => litP ['\n'] (fun s17 => some ((title, url, score, ab), s17))) [])

/-- Stage 7, `\s*(\d+)` then the literal `/10\n**Abstract:**`. -/
def mScore (title url : Chars) : Chars → Option (Caps × Chars) :=
  starG pyWS (digitsP (fun score => litP litAbs (mAbstract title url score)))

/-- Stage 6, `\s*\n` then the literal `**Relevance:**`. -/
def mRelLine (title url : Chars) : Chars → Option (Caps × Chars) :=
  starG pyWS (litP ['\n'] (litP litRel (mScore title url)))

/-- Stage 5, the lazy URL capture closed by `)`. -/
def mUrl (title : Chars) : Chars → Option (Caps × Chars) :=
  lazyA (fun url => litP [')'] (mRelLine title url)) []

/-- Stage 4, the lazy title capture closed by `](`. -/
def mTitle : Chars → Option (Caps × Chars) :=
  lazyA (fun title => litP [']', '('] (mUrl title)) []

/-- Anchored match of the full pattern at the start of `s`: on success,
the four captures (title, url, score, abstract) and the unconsumed rest.
Reading the stages together: `\d+\.\s\[` then `mTitle`. -/
def matchAt (s : Chars) : Option (Caps × Chars) :=
  digitsP (fun _num => litP ['.'] (oneP pyWS (litP ['['] mTitle))) s

/-- `re.findall` scanning, fuelled: try a match at each position left to
right; on success emit the captures and resume after the match. -/
def extractAux : Nat → Chars → List Caps
  | 0, _ => []
  | fuel + 1, s =>
    match matchAt s with
    | some (caps, rest) => caps :: extractAux fuel rest
    | none =>
      match s with
      | [] => []
      | _ :: s' => extractAux fuel s'

/-- `re.findall(pattern, s)`. -/
def extractAll (s : Chars) : List Caps := extractAux s.length s

/-- One structured search result, the unit of output (`ResultRecord`).
The extractor builds dicts with exactly the first five keys; `year` is
carried only for formatting and is never populated by this program. -/
structure Entry where
  title : String
  link : String
  relevance : Int
  abstract : String
  source : String
  year : Option Int := none
deriving DecidableEq

/-- The per-match record construction of `gemini_scholar_search`:
`title`/`link`/`abstract` stripped, `relevance` as `int(score)`,
`source` the fixed backend tag. -/
def capsToEntry (c : Caps) : Entry :=
  { title := String.mk (pyStrip c.1)
    link := String.mk (pyStrip c.2.1)
    relevance := (digitsVal c.2.2.1 : Int)
    abstract := String.mk (pyStrip c.2.2.2)
    source := "gemini"
    year := none }

/-- The parse of a raw response text into records, in order of appearance. -/
def extract (s : Chars) : List Entry := (extractAll s).map capsToEntry

/-- `gemini_scholar_search`, with the generation call's outcome made
explicit: `.ok text` is a successful `resp.text`, `.error e` is any
exception raised by the collaborator (its message).  The `try/except`
of the source becomes the two branches; the function is total, so no
exception can propagate. -/
def geminiScholarSearch : Except String String → List Entry
  | .ok text => extract text.data
  | .error e =>
      [{ title := "Gemini Error: " ++ e
         link := ""
         relevance := 0
         abstract := ""
         source := "gemini"
         year := none }]

/-- The prompt template of `gemini_scholar_search` (the f-string of the
source, adjacent literals concatenated). -/
def buildPrompt (query : String) (maxResults : Int) : String :=
  "Search Google Scholar for recent academic studies related to the following query:\n'"
    ++ query
    ++ "'.\nProvide the top "
    ++ toString maxResults
    ++ " articles with this exact Markdown format:\n"
    ++ "<number>. [<Title>](<URL>)\n**Relevance:** <score>/10\n**Abstract:** <text>\n"
    ++ "Rate relevance from 1–10 where 10 is the most relevant."

/-- One Markdown block of `format_md`: `e['link'] or '#'` substitutes the
anchor for an empty (falsy) link, `e.get('year')` is printed only when
truthy (a present, nonzero year). -/
def mdEntry (idx : Nat) (e : Entry) : String :=
  toString idx ++ ". [" ++ e.title ++ "](" ++ (if e.link = "" then "#" else e.link)
    ++ ")\n" ++ "**Relevance:** " ++ toString e.relevance ++ "/10\n"
    ++ (match e.year with
        | some y => if y = 0 then "" else "**Year:** " ++ toString y ++ "\n"
        | none => "")
    ++ "**Abstract:** " ++ e.abstract ++ "\n"

/-- `format_md`: 1-based enumeration, blocks joined by a blank line. -/
def formatMd (entries : List Entry) : String :=
  String.intercalate "\n" (entries.enum.map (fun p => mdEntry (p.1 + 1) p.2))

/-- The `--sort` choices of the CLI. -/
inductive SortMode
  | relevance
  | retrieved
deriving DecidableEq

/-- Descending-by-relevance comparison used by `main`'s
`sort(key=lambda r: r.get("relevance", 0), reverse=True)`. -/
def relGE (a b : Entry) : Prop := b.relevance ≤ a.relevance

instance : DecidableRel relGE := fun a b => inferInstanceAs (Decidable (b.relevance ≤ a.relevance))

instance : IsTotal Entry relGE := ⟨fun a b => le_total b.relevance a.relevance⟩

instance : IsTrans Entry relGE := ⟨fun _ _ _ hab hbc => le_trans hbc hab⟩

/-- Python's `list.sort` is a stable sort; with this comparator, stable
sorting coincides with insertion sort inserting earlier elements in
front of equal keys. -/
def sortByRelevance (l : List Entry) : List Entry := List.insertionSort relGE l

/-- The sorting step of `main`: only mode `relevance` reorders. -/
def applySort : SortMode → List Entry → List Entry
  | .relevance, l => sortByRelevance l
  | .retrieved, l => l

/-- JSON documents, the shape `json.dump` serializes. -/
inductive Jv
  | jnull
  | jstr (s : String)
  | jint (n : Int)
  | jarr (l : List Jv)
  | jobj (fields : List (String × Jv))

/-- The JSON object `write_json` emits for one record dict: the five keys
in insertion order, plus `year` when the dict carries it. -/
def entryToJson (e : Entry) : Jv :=
  .jobj ([("title", .jstr e.title), ("link", .jstr e.link), ("relevance", .jint e.relevance),
          ("abstract", .jstr e.abstract), ("source", .jstr e.source)] ++
    (match e.year with
     | some y => [("year", Jv.jint y)]
     | none => []))

/-- The JSON document `write_json(entries, path)` writes: an array of the
record objects in sequence order. -/
def writeJsonDoc (l : List Entry) : Jv := .jarr (l.map entryToJson)

/-- Modelled from the spec: the repository contains no parse-back code
(the round-trip property of the spec reads the JSON output back with a
standard JSON parser), so the decoder is the spec's field-for-field
reconstruction of a record from its object. -/
def jsonToEntry : Jv → Option Entry
  | .jobj [("title", .jstr t), ("link", .jstr li), ("relevance", .jint r),
           ("abstract", .jstr a), ("source", .jstr so)] =>
      some { title := t, link := li, relevance := r, abstract := a, source := so, year := none }
  | .jobj [("title", .jstr t), ("link", .jstr li), ("relevance", .jint r),
           ("abstract", .jstr a), ("source", .jstr so), ("year", .jint y)] =>
      some { title := t, link := li, relevance := r, abstract := a, source := so, year := some y }
  | _ => none

/-- Modelled from the spec: decode a list of record objects in order,
failing if any element fails. -/
def decodeEntries : List Jv → Option (List Entry)
  | [] => some []
  | j :: js =>
    match jsonToEntry j, decodeEntries js with
    | some e, some es => some (e :: es)
    | _, _ => none

/-- Modelled from the spec: parsing the JSON output back to a record
sequence (array of record objects, order preserved). -/
def parseJsonDoc : Jv → Option (List Entry)
  | .jarr l => decodeEntries l
  | _ => none

/-- A CSV cell value: Python dict values are strings or ints here. -/
inductive CVal
  | s (v : String)
  | i (n : Int)
deriving DecidableEq

/-- A record as the Python dict `csv.DictWriter` receives. -/
abbrev Row := List (String × CVal)

/-- `row.get(k, "")`. -/
def rowGet (r : Row) (k : String) : CVal := (List.lookup k r).getD (.s "")

/-- How the csv module renders a value into a cell (str() for ints). -/
def cvalStr : CVal → String
  | .s v => v
  | .i n => toString n

/-- QUOTE_MINIMAL: quote a field iff it contains the delimiter, the
quote character, or a line-terminator character. -/
def needsQuote (v : String) : Bool :=
  v.data.any (fun c => c = ',' || c = '"' || c = '\r' || c = '\n')

/-- Double embedded quote characters. -/
def dqEscape (v : String) : String :=
  String.mk (v.data.flatMap (fun c => if c = '"' then ['"', '"'] else [c]))

/-- One rendered CSV field under QUOTE_MINIMAL. -/
def csvQuote (v : String) : String :=
  if needsQuote v then "\"" ++ dqEscape v ++ "\"" else v

/-- The fieldnames of `write_csv`. -/
def fieldNames : List String := ["title", "link", "relevance", "abstract", "source"]

/-- One data row: the five cells `row.get(k, "")` joined by commas, with
the excel dialect's CRLF line terminator. -/
def csvRowLine (r : Row) : String :=
  String.intercalate "," (fieldNames.map (fun k => csvQuote (cvalStr (rowGet r k)))) ++ "\r\n"

/-- The full file `write_csv` writes: header row then one row per record. -/
def writeCsv (rows : List Row) : String :=
  "title,link,relevance,abstract,source\r\n" ++ String.join (rows.map csvRowLine)

/-- The dict an `Entry` stands for (keys in insertion order). -/
def entryToRow (e : Entry) : Row :=
  [("title", .s e.title), ("link", .s e.link), ("relevance", .i e.relevance),
   ("abstract", .s e.abstract), ("source", .s e.source)] ++
    (match e.year with
     | some y => [("year", CVal.i y)]
     | none => [])

/-- A canonical conforming block of the four-field grammar, as the spec
describes one entry: ordinal, bracketed title, parenthesized URL,
relevance line, abstract line. -/
structure Block where
  num : Chars
  title : Chars
  url : Chars
  score : Chars
  ab : Chars

/-- Canonicity of a block: the ordinal and score are (nonempty) digit
strings, the three text fields are single-line and free of the grammar's
closing delimiters, and the abstract is nonempty and starts with a
non-whitespace character. -/
def Canon (b : Block) : Prop :=
  b.num ≠ [] ∧ (∀ c ∈ b.num, isDig c = true) ∧
  (']' ∉ b.title) ∧ ('\n' ∉ b.title) ∧
  (')' ∉ b.url) ∧ ('\n' ∉ b.url) ∧
  b.score ≠ [] ∧ (∀ c ∈ b.score, isDig c = true) ∧
  b.ab ≠ [] ∧ pyWS (b.ab.headD '#') = false ∧ ('\n' ∉ b.ab)

instance decCanon (b : Block) : Decidable (Canon b) := by
  unfold Canon
  infer_instance

/-- The rendered text of a canonical block, newline-terminated. -/
def Block.render (b : Block) : Chars :=
  b.num ++ '.' :: ' ' :: '[' :: (b.title ++ ']' :: '(' :: (b.url ++ ')' :: '\n' ::
    (litRel ++ ' ' :: (b.score ++ (litAbs ++ ' ' :: (b.ab ++ ['\n']))))))

/-- The same block with the final newline missing. -/
def Block.renderNoNL (b : Block) : Chars :=
  b.num ++ '.' :: ' ' :: '[' :: (b.title ++ ']' :: '(' :: (b.url ++ ')' :: '\n' ::
    (litRel ++ ' ' :: (b.score ++ (litAbs ++ ' ' :: b.ab)))))

/-- The record the extractor produces from a canonical block. -/
def Block.entry (b : Block) : Entry := capsToEntry (b.title, b.url, b.score, b.ab)

/-- A segment of a response text: a conforming block or a raw fragment. -/
inductive Seg
  | blk (b : Block)
  | frag (f : Chars)

/-- The text of a segment. -/
def Seg.render : Seg → Chars
  | .blk b => b.render
  | .frag f => f

/-- Side conditions of the amended tolerance property: blocks canonical,
malformed fragments ASCII and free of decimal digits.  A match can only
begin at a `\d` character, and since no ASCII character outside `0-9` is
a Unicode decimal digit, an ASCII digit-free fragment can neither start
nor seed a spurious match in the program, exactly as in this model. -/
def SegOK : Seg → Prop
  | .blk b => Canon b
  | .frag f => ∀ c ∈ f, c.toNat < 128 ∧ isDig c = false

/-- A whole response text assembled from segments. -/
def segsText (l : List Seg) : Chars := (l.map Seg.render).flatten

/-- The records of the conforming blocks among the segments, in order. -/
def segEntries (l : List Seg) : List Entry :=
  l.filterMap (fun sg => match sg with
    | .blk b => some b.entry
    | .frag _ => none)

/-- Substring occurrence (at the character-list level). -/
def occursIn (pat l : Chars) : Prop := ∃ u v, l = u ++ pat ++ v

/-- Executable substring test. -/
def occursB : Chars → Chars → Bool
  | pat, [] => pat.isEmpty
  | pat, c :: t => pat.isPrefixOf (c :: t) || occursB pat t

/-! ## Combinator lemmas -/

theorem orO_eq_some {a b : Option α} {r : α} (h : orO a b = some r) :
    a = some r ∨ (a = none ∧ b = some r) := by
  cases a with
  | some x => left; simpa [orO] using h
  | none => right; exact ⟨rfl, by simpa [orO] using h⟩

theorem orO_some {a b : Option α} {r : α} (h : a = some r) : orO a b = some r := by
  subst h; rfl

theorem orO_none {a b : Option α} (h : a = none) : orO a b = b := by
  subst h; rfl

theorem litP_eq_some {κ : Chars → Option α} {r : α} :
    ∀ {l s : Chars}, litP l κ s = some r → ∃ s', s = l ++ s' ∧ κ s' = some r := by
  intro l
  induction l with
  | nil => intro s h; exact ⟨s, rfl, h⟩
  | cons c l ih =>
    intro s h
    cases s with
    | nil => simp [litP] at h
    | cons d s =>
      by_cases hcd : c = d
      · subst hcd
        simp only [litP, if_pos rfl] at h
        obtain ⟨s', hs, hk⟩ := ih h
        exact ⟨s', by simp [hs], hk⟩
      · simp [litP, hcd] at h

theorem litP_self {κ : Chars → Option α} : ∀ (l t : Chars), litP l κ (l ++ t) = κ t := by
  intro l
  induction l with
  | nil => intro t; rfl
  | cons c l ih => intro t; simp [litP, ih]

theorem litP_ne_head {κ : Chars → Option α} {c d : Char} {l s : Chars} (h : c ≠ d) :
    litP (c :: l) κ (d :: s) = none := by
  simp [litP, h]

theorem oneP_eq_some {p : Char → Bool} {κ : Chars → Option α} {s : Chars} {r : α}
    (h : oneP p κ s = some r) : ∃ c s', s = c :: s' ∧ p c = true ∧ κ s' = some r := by
  cases s with
  | nil => simp [oneP] at h
  | cons c s =>
    by_cases hp : p c = true
    · exact ⟨c, s, rfl, hp, by simpa [oneP, hp] using h⟩
    · simp [oneP, hp] at h

theorem starG_eq_some {p : Char → Bool} {κ : Chars → Option α} {r : α} :
    ∀ {s : Chars}, starG p κ s = some r →
      ∃ w s', s = w ++ s' ∧ (∀ c ∈ w, p c = true) ∧ κ s' = some r := by
  intro s
  induction s with
  | nil => intro h; exact ⟨[], [], rfl, by simp, h⟩
  | cons c s ih =>
    intro h
    by_cases hp : p c = true
    · simp only [starG, hp, if_true] at h
      rcases orO_eq_some h with h1 | ⟨_, h2⟩
      · obtain ⟨w, s', hs, hw, hk⟩ := ih h1
        exact ⟨c :: w, s', by simp [hs], List.forall_mem_cons.mpr ⟨hp, hw⟩, hk⟩
      · exact ⟨[], c :: s, rfl, by simp, h2⟩
    · simp only [starG, hp, if_false] at h
      exact ⟨[], c :: s, rfl, by simp, h⟩

theorem starG_complete {p : Char → Bool} {κ : Chars → Option α} {r : α} {c' : Char} {t : Chars} :
    ∀ {w : Chars}, (∀ c ∈ w, p c = true) → p c' = false → κ (c' :: t) = some r →
      starG p κ (w ++ c' :: t) = some r := by
  intro w
  induction w with
  | nil => intro _ hc hk; simpa [starG, hc] using hk
  | cons c w ih =>
    intro hw hc hk
    have hpc : p c = true := hw c (by simp)
    have : starG p κ (w ++ c' :: t) = some r := ih (fun d hd => hw d (by simp [hd])) hc hk
    simp only [List.cons_append, starG, hpc, if_true]
    exact orO_some this

theorem starG_ws_nl {κ : Chars → Option α} {r : α} {c : Char} {t : Chars}
    (hc : pyWS c = false) (hk : κ (c :: t) = some r) :
    starG pyWS (litP ['\n'] κ) ('\n' :: c :: t) = some r := by
  have hnl : pyWS '\n' = true := by decide
  have hcn : c ≠ '\n' := by
    intro h; subst h; simp [hnl] at hc
  have hlit1 : litP ['\n'] κ (c :: t) = none := litP_ne_head (fun h => hcn h.symm)
  have hlit2 : litP ['\n'] κ ('\n' :: c :: t) = κ (c :: t) := litP_self ['\n'] (c :: t)
  simp [starG, hnl, hc, hlit1, hlit2, orO, hk]

theorem lazyA_eq_some {κ : Chars → Chars → Option α} {r : α} :
    ∀ {s acc : Chars}, lazyA κ acc s = some r →
      ∃ mid s', s = mid ++ s' ∧ κ (acc ++ mid) s' = some r := by
  intro s
  induction s with
  | nil => intro acc h; exact ⟨[], [], rfl, by simpa using h⟩
  | cons c s ih =>
    intro acc h
    simp only [lazyA] at h
    rcases orO_eq_some h with h1 | ⟨_, h2⟩
    · exact ⟨[], c :: s, rfl, by simpa using h1⟩
    · obtain ⟨mid, s', hs, hk⟩ := ih h2
      exact ⟨c :: mid, s', by simp [hs], by simpa [List.append_assoc] using hk⟩

theorem lazyA_complete {κ : Chars → Chars → Option α} {r : α} {t : Chars} :
    ∀ {mid acc : Chars},
      (∀ pre c suf, mid = pre ++ c :: suf → κ (acc ++ pre) (c :: (suf ++ t)) = none) →
      κ (acc ++ mid) t = some r →
      lazyA κ acc (mid ++ t) = some r := by
  intro mid
  induction mid with
  | nil =>
    intro acc _ hok
    cases t with
    | nil => simpa using hok
    | cons c t' => simp only [List.nil_append, lazyA]; exact orO_some (by simpa using hok)
  | cons m mid ih =>
    intro acc hfail hok
    have h0 : κ acc (m :: (mid ++ t)) = none := by
      have := hfail [] m mid rfl
      simpa using this
    simp only [List.cons_append, lazyA, List.append_eq]
    rw [orO_none h0]
    apply ih
    · intro pre c suf hmid
      have := hfail (m :: pre) c suf (by simp [hmid])
      simpa [List.append_assoc] using this
    · simpa [List.append_assoc] using hok

theorem digitsG_eq_some {κ : Chars → Chars → Option α} {r : α} :
    ∀ {s acc : Chars}, digitsG κ acc s = some r →
      ∃ ds s', s = ds ++ s' ∧ (∀ c ∈ ds, isDig c = true) ∧ κ (acc ++ ds) s' = some r := by
  intro s
  induction s with
  | nil => intro acc h; exact ⟨[], [], rfl, by simp, by simpa using h⟩
  | cons c s ih =>
    intro acc h
    by_cases hd : isDig c = true
    · simp only [digitsG, hd, if_true] at h
      rcases orO_eq_some h with h1 | ⟨_, h2⟩
      · obtain ⟨ds, s', hs, hds, hk⟩ := ih h1
        exact ⟨c :: ds, s', by simp [hs], List.forall_mem_cons.mpr ⟨hd, hds⟩,
          by simpa [List.append_assoc] using hk⟩
      · exact ⟨[], c :: s, rfl, by simp, by simpa using h2⟩
    · simp only [digitsG, hd, if_false] at h
      exact ⟨[], c :: s, rfl, by simp, by simpa using h⟩

theorem digitsP_eq_some {κ : Chars → Chars → Option α} {r : α} {s : Chars}
    (h : digitsP κ s = some r) :
    ∃ ds s', s = ds ++ s' ∧ ds ≠ [] ∧ (∀ c ∈ ds, isDig c = true) ∧ κ ds s' = some r := by
  cases s with
  | nil => simp [digitsP] at h
  | cons c s =>
    by_cases hd : isDig c = true
    · simp only [digitsP, hd, if_true] at h
      obtain ⟨ds, s', hs, hds, hk⟩ := digitsG_eq_some h
      exact ⟨c :: ds, s', by simp [hs], by simp, List.forall_mem_cons.mpr ⟨hd, hds⟩,
        by simpa using hk⟩
    · simp [digitsP, hd] at h

theorem digitsG_complete {κ : Chars → Chars → Option α} {r : α} {c' : Char} {t : Chars}
    (hc : isDig c' = false) :
    ∀ {ds acc : Chars}, (∀ c ∈ ds, isDig c = true) →
      κ (acc ++ ds) (c' :: t) = some r → digitsG κ acc (ds ++ c' :: t) = some r := by
  intro ds
  induction ds with
  | nil => intro acc _ hk; simpa [digitsG, hc] using hk
  | cons d ds ih =>
    intro acc hds hk
    have hd : isDig d = true := hds d (by simp)
    simp only [List.cons_append, digitsG, hd, if_true]
    apply orO_some
    apply ih (fun c hcm => hds c (by simp [hcm]))
    simpa [List.append_assoc] using hk

theorem digitsP_complete {κ : Chars → Chars → Option α} {r : α} {ds : Chars} {c' : Char}
    {t : Chars} (hne : ds ≠ []) (hds : ∀ c ∈ ds, isDig c = true) (hc : isDig c' = false)
    (hk : κ ds (c' :: t) = some r) : digitsP κ (ds ++ c' :: t) = some r := by
  cases ds with
  | nil => exact absurd rfl hne
  | cons d ds =>
    have hd : isDig d = true := hds d (by simp)
    simp only [List.cons_append, digitsP, hd, if_true]
    exact digitsG_complete hc (fun c hcm => hds c (by simp [hcm])) (by simpa using hk)

theorem dig_not_ws {c : Char} (h : isDig c = true) : pyWS c = false := by
  have h' : 48 ≤ c.toNat ∧ c.toNat ≤ 57 := by simpa [isDig] using h
  rw [Bool.eq_false_iff]
  intro hws
  simp only [pyWS, Bool.or_eq_true, Bool.and_eq_true, decide_eq_true_eq] at hws
  omega

theorem dig_ne_nl {c : Char} (h : isDig c = true) : c ≠ '\n' := by
  intro he; subst he; simp [isDig] at h

/-! ## Structure of a successful match -/

theorem matchAt_nil : matchAt [] = none := rfl

/-- Any successful match consumes at least one character and its matched
text contains at least three newlines (the one closing the title line,
the one inside `/10\n**Abstract:**`, and the final one). -/
theorem matchAt_eq_some {s : Chars} {caps : Caps} {rest : Chars}
    (h : matchAt s = some (caps, rest)) :
    rest.length < s.length ∧ 3 ≤ s.count '\n' := by
  unfold matchAt at h
  obtain ⟨ds, s1, hs1, _hdsne, _hdsd, h⟩ := digitsP_eq_some h
  obtain ⟨s2, hs2, h⟩ := litP_eq_some h
  obtain ⟨w, s3, hs3, _hw, h⟩ := oneP_eq_some h
  obtain ⟨s4, hs4, h⟩ := litP_eq_some h
  unfold mTitle at h
  obtain ⟨tit, s5, hs5, h⟩ := lazyA_eq_some h
  obtain ⟨s6, hs6, h⟩ := litP_eq_some h
  unfold mUrl at h
  obtain ⟨url, s7, hs7, h⟩ := lazyA_eq_some h
  obtain ⟨s8, hs8, h⟩ := litP_eq_some h
  unfold mRelLine at h
  obtain ⟨ws2, s9, hs9, _hws2, h⟩ := starG_eq_some h
  obtain ⟨s10, hs10, h⟩ := litP_eq_some h
  obtain ⟨s11, hs11, h⟩ := litP_eq_some h
  unfold mScore at h
  obtain ⟨ws3, s12, hs12, _hws3, h⟩ := starG_eq_some h
  obtain ⟨sc, s13, hs13, _hscne, _hscd, h⟩ := digitsP_eq_some h
  obtain ⟨s14, hs14, h⟩ := litP_eq_some h
  unfold mAbstract at h
  obtain ⟨ws4, s15, hs15, _hws4, h⟩ := starG_eq_some h
  obtain ⟨ab, s16, hs16, h⟩ := lazyA_eq_some h
  obtain ⟨s17, hs17, h⟩ := litP_eq_some h
  have hpair := Option.some.inj h
  have hrest : s17 = rest := congrArg Prod.snd hpair
  subst hrest
  subst hs1 hs2 hs3 hs4 hs5 hs6 hs7 hs8 hs9 hs10 hs11 hs12 hs13 hs14 hs15 hs16 hs17
  constructor
  · simp only [List.length_append, List.length_cons]
    omega
  · have hA : litAbs.count '\n' = 1 := by decide
    have hR : litRel.count '\n' = 0 := by decide
    have e1 : (('\n' : Char) == '\n') = true := rfl
    have e2 : (('(' : Char) == '\n') = false := rfl
    have e3 : ((']' : Char) == '\n') = false := rfl
    have e4 : ((')' : Char) == '\n') = false := rfl
    have e5 : (('[' : Char) == '\n') = false := rfl
    have e6 : (('.' : Char) == '\n') = false := rfl
    simp only [List.count_append, List.count_cons, hA, hR, List.singleton_append,
      e1, e2, e3, e4, e5, e6, if_true, if_false]
    omega

/-! ## The findall scan -/

theorem extractAux_nil : ∀ f, extractAux f [] = [] := by
  intro f
  cases f with
  | zero => rfl
  | succ g => simp [extractAux, matchAt_nil]

theorem extractAux_congr :
    ∀ (f1 : Nat), ∀ f2 : Nat, ∀ s : Chars, s.length ≤ f1 → s.length ≤ f2 →
      extractAux f1 s = extractAux f2 s := by
  intro f1
  induction f1 with
  | zero =>
    intro f2 s h1 _
    have : s = [] := List.length_eq_zero.mp (Nat.le_zero.mp h1)
    subst this
    rw [extractAux_nil, extractAux_nil]
  | succ g ih =>
    intro f2 s h1 h2
    cases s with
    | nil => rw [extractAux_nil, extractAux_nil]
    | cons c s' =>
      cases f2 with
      | zero => simp at h2
      | succ g2 =>
        cases hm : matchAt (c :: s') with
        | some pr =>
          obtain ⟨caps, rest⟩ := pr
          have hlt := (matchAt_eq_some hm).1
          simp only [extractAux, hm]
          have hle1 : rest.length ≤ g := by
            simp only [List.length_cons] at hlt h1; omega
          have hle2 : rest.length ≤ g2 := by
            simp only [List.length_cons] at hlt h2; omega
          rw [ih g2 rest hle1 hle2]
        | none =>
          simp only [extractAux, hm]
          refine ih g2 s' ?_ ?_
          · simp only [List.length_cons] at h1; omega
          · simp only [List.length_cons] at h2; omega

theorem extractAll_cons_match {s : Chars} {caps : Caps} {rest : Chars}
    (h : matchAt s = some (caps, rest)) : extractAll s = caps :: extractAll rest := by
  have hlt := (matchAt_eq_some h).1
  cases s with
  | nil => rw [matchAt_nil] at h; exact absurd h (by simp)
  | cons c s' =>
    show extractAux (c :: s').length (c :: s') = _
    simp only [List.length_cons, extractAux, h]
    rw [extractAux_congr s'.length rest.length rest
      (by simp only [List.length_cons] at hlt; omega) le_rfl]
    rfl

theorem extractAll_cons_none {c : Char} {s' : Chars} (h : matchAt (c :: s') = none) :
    extractAll (c :: s') = extractAll s' := by
  show extractAux (c :: s').length (c :: s') = _
  simp only [List.length_cons, extractAux, h]
  rfl

theorem matchAt_cons_nondigit {c : Char} {s : Chars} (h : isDig c = false) :
    matchAt (c :: s) = none := by
  simp [matchAt, digitsP, h]

/-- A digit-free fragment before any text contributes nothing: no match
can begin inside it, since a match begins with `\d`. -/
theorem extractAll_append_frag {f t : Chars} (hf : ∀ c ∈ f, isDig c = false) :
    extractAll (f ++ t) = extractAll t := by
  induction f with
  | nil => simp
  | cons c f' ih =>
    have hm : matchAt (c :: (f' ++ t)) = none := matchAt_cons_nondigit (hf c (by simp))
    rw [List.cons_append, extractAll_cons_none hm, ih (fun d hd => hf d (by simp [hd]))]

/-! ## A canonical block matches exactly itself -/

theorem mAbstract_canon {ab : Chars} (habne : ab ≠ []) (habh : pyWS (ab.headD '#') = false)
    (habNL : '\n' ∉ ab) (title url score rest : Chars) :
    mAbstract title url score (' ' :: (ab ++ '\n' :: rest)) =
      some ((title, url, score, ab), rest) := by
  obtain ⟨a0, ab', hab⟩ : ∃ a0 ab', ab = a0 :: ab' := by
    cases hb : ab with
    | nil => exact absurd hb habne
    | cons x xs => exact ⟨x, xs, rfl⟩
  have ha0 : pyWS a0 = false := by rw [hab] at habh; simpa using habh
  unfold mAbstract
  have hstar : lazyA (fun a => litP ['\n']
      (fun s17 => some ((title, url, score, a), s17))) [] (ab ++ '\n' :: rest) =
      some ((title, url, score, ab), rest) := by
    refine lazyA_complete ?_ ?_
    · intro pre c suf hsplit
      have hc : c ∈ ab := by rw [hsplit]; simp
      have hcn : c ≠ '\n' := fun he => habNL (he ▸ hc)
      exact litP_ne_head (fun he => hcn he.symm)
    · have : litP ['\n'] (fun s17 => some ((title, url, score, [] ++ ab), s17))
          ('\n' :: rest) = some ((title, url, score, [] ++ ab), rest) :=
        litP_self ['\n'] rest
      simpa using this
  rw [hab] at hstar ⊢
  exact starG_complete (w := [' ']) (by decide) ha0 hstar

theorem mScore_canon {score ab : Chars} (hscne : score ≠ [])
    (hscd : ∀ c ∈ score, isDig c = true) (habne : ab ≠ [])
    (habh : pyWS (ab.headD '#') = false) (habNL : '\n' ∉ ab) (title url rest : Chars) :
    mScore title url (' ' :: (score ++ (litAbs ++ ' ' :: (ab ++ '\n' :: rest)))) =
      some ((title, url, score, ab), rest) := by
  obtain ⟨sc0, sc', hsc⟩ : ∃ sc0 sc', score = sc0 :: sc' := by
    cases hb : score with
    | nil => exact absurd hb hscne
    | cons x xs => exact ⟨x, xs, rfl⟩
  have hsc0 : isDig sc0 = true := hscd sc0 (by rw [hsc]; simp)
  unfold mScore
  have hdig : digitsP (fun s => litP litAbs (mAbstract title url s))
      (score ++ (litAbs ++ ' ' :: (ab ++ '\n' :: rest))) =
      some ((title, url, score, ab), rest) := by
    refine digitsP_complete hscne hscd (by decide) ?_
    have hlit : litP litAbs (mAbstract title url score)
        (litAbs ++ ' ' :: (ab ++ '\n' :: rest)) =
        mAbstract title url score (' ' :: (ab ++ '\n' :: rest)) :=
      litP_self litAbs (' ' :: (ab ++ '\n' :: rest))
    exact hlit.trans (mAbstract_canon habne habh habNL title url score rest)
  rw [hsc] at hdig ⊢
  exact starG_complete (w := [' ']) (by decide) (dig_not_ws hsc0) hdig

theorem mRelLine_canon {score ab : Chars} (hscne : score ≠ [])
    (hscd : ∀ c ∈ score, isDig c = true) (habne : ab ≠ [])
    (habh : pyWS (ab.headD '#') = false) (habNL : '\n' ∉ ab) (title url rest : Chars) :
    mRelLine title url
      ('\n' :: (litRel ++ ' ' :: (score ++ (litAbs ++ ' ' :: (ab ++ '\n' :: rest))))) =
      some ((title, url, score, ab), rest) := by
  unfold mRelLine
  have hlit : litP litRel (mScore title url)
      (litRel ++ ' ' :: (score ++ (litAbs ++ ' ' :: (ab ++ '\n' :: rest)))) =
      mScore title url (' ' :: (score ++ (litAbs ++ ' ' :: (ab ++ '\n' :: rest)))) :=
    litP_self litRel _
  exact starG_ws_nl (by decide)
    (hlit.trans (mScore_canon hscne hscd habne habh habNL title url rest))

theorem mUrl_canon {url score ab : Chars} (hurlR : ')' ∉ url) (hscne : score ≠ [])
    (hscd : ∀ c ∈ score, isDig c = true) (habne : ab ≠ [])
    (habh : pyWS (ab.headD '#') = false) (habNL : '\n' ∉ ab) (title rest : Chars) :
    mUrl title
      (url ++ ')' :: '\n' ::
        (litRel ++ ' ' :: (score ++ (litAbs ++ ' ' :: (ab ++ '\n' :: rest))))) =
      some ((title, url, score, ab), rest) := by
  unfold mUrl
  refine lazyA_complete ?_ ?_
  · intro pre c suf hsplit
    have hc : c ∈ url := by rw [hsplit]; simp
    have hcn : c ≠ ')' := fun he => hurlR (he ▸ hc)
    exact litP_ne_head (fun he => hcn he.symm)
  · have hlit : litP [')'] (mRelLine title ([] ++ url))
        (')' :: '\n' :: (litRel ++ ' ' :: (score ++ (litAbs ++ ' ' :: (ab ++ '\n' :: rest))))) =
        mRelLine title ([] ++ url)
          ('\n' :: (litRel ++ ' ' :: (score ++ (litAbs ++ ' ' :: (ab ++ '\n' :: rest))))) :=
      litP_self [')'] _
    simpa using hlit.trans (mRelLine_canon hscne hscd habne habh habNL title url rest)

theorem mTitle_canon {title url score ab : Chars} (htitR : ']' ∉ title) (hurlR : ')' ∉ url)
    (hscne : score ≠ []) (hscd : ∀ c ∈ score, isDig c = true) (habne : ab ≠ [])
    (habh : pyWS (ab.headD '#') = false) (habNL : '\n' ∉ ab) (rest : Chars) :
    mTitle
      (title ++ ']' :: '(' ::
        (url ++ ')' :: '\n' ::
          (litRel ++ ' ' :: (score ++ (litAbs ++ ' ' :: (ab ++ '\n' :: rest)))))) =
      some ((title, url, score, ab), rest) := by
  unfold mTitle
  refine lazyA_complete ?_ ?_
  · intro pre c suf hsplit
    have hc : c ∈ title := by rw [hsplit]; simp
    have hcn : c ≠ ']' := fun he => htitR (he ▸ hc)
    exact litP_ne_head (fun he => hcn he.symm)
  · have hlit : litP [']', '('] (mUrl ([] ++ title))
        (']' :: '(' ::
          (url ++ ')' :: '\n' ::
            (litRel ++ ' ' :: (score ++ (litAbs ++ ' ' :: (ab ++ '\n' :: rest)))))) =
        mUrl ([] ++ title)
          (url ++ ')' :: '\n' ::
            (litRel ++ ' ' :: (score ++ (litAbs ++ ' ' :: (ab ++ '\n' :: rest))))) :=
      litP_self [']', '('] _
    simpa using hlit.trans (mUrl_canon hurlR hscne hscd habne habh habNL title rest)

theorem matchAt_canon {b : Block} (h : Canon b) (rest : Chars) :
    matchAt (b.render ++ rest) = some ((b.title, b.url, b.score, b.ab), rest) := by
  obtain ⟨hnumne, hnumd, htitR, _htitNL, hurlR, _hurlNL, hscne, hscd, habne, habh, habNL⟩ := h
  have hshape : b.render ++ rest =
      b.num ++ '.' :: ' ' :: '[' ::
        (b.title ++ ']' :: '(' ::
          (b.url ++ ')' :: '\n' ::
            (litRel ++ ' ' :: (b.score ++ (litAbs ++ ' ' :: (b.ab ++ '\n' :: rest)))))) := by
    simp [Block.render, List.append_assoc]
  unfold matchAt
  rw [hshape]
  refine digitsP_complete hnumne hnumd (by decide) ?_
  have t1 : litP ['.'] (oneP pyWS (litP ['['] mTitle))
      ('.' :: ' ' :: '[' ::
        (b.title ++ ']' :: '(' ::
          (b.url ++ ')' :: '\n' ::
            (litRel ++ ' ' :: (b.score ++ (litAbs ++ ' ' :: (b.ab ++ '\n' :: rest))))))) =
      oneP pyWS (litP ['['] mTitle)
        (' ' :: '[' ::
          (b.title ++ ']' :: '(' ::
            (b.url ++ ')' :: '\n' ::
              (litRel ++ ' ' :: (b.score ++ (litAbs ++ ' ' :: (b.ab ++ '\n' :: rest))))))) :=
    litP_self ['.'] _
  have t2 : oneP pyWS (litP ['['] mTitle)
      (' ' :: '[' ::
        (b.title ++ ']' :: '(' ::
          (b.url ++ ')' :: '\n' ::
            (litRel ++ ' ' :: (b.score ++ (litAbs ++ ' ' :: (b.ab ++ '\n' :: rest))))))) =
      litP ['['] mTitle
        ('[' ::
          (b.title ++ ']' :: '(' ::
            (b.url ++ ')' :: '\n' ::
              (litRel ++ ' ' :: (b.score ++ (litAbs ++ ' ' :: (b.ab ++ '\n' :: rest))))))) := by
    have hws : pyWS ' ' = true := by decide
    simp [oneP, hws]
  have t3 : litP ['['] mTitle
      ('[' ::
        (b.title ++ ']' :: '(' ::
          (b.url ++ ')' :: '\n' ::
            (litRel ++ ' ' :: (b.score ++ (litAbs ++ ' ' :: (b.ab ++ '\n' :: rest))))))) =
      mTitle
        (b.title ++ ']' :: '(' ::
          (b.url ++ ')' :: '\n' ::
            (litRel ++ ' ' :: (b.score ++ (litAbs ++ ' ' :: (b.ab ++ '\n' :: rest)))))) :=
    litP_self ['['] _
  exact t1.trans (t2.trans (t3.trans
    (mTitle_canon htitR hurlR hscne hscd habne habh habNL rest)))

/-! ## Extraction over segmented texts -/

theorem extractAll_block {b : Block} (h : Canon b) (t : Chars) :
    extractAll (b.render ++ t) = (b.title, b.url, b.score, b.ab) :: extractAll t :=
  extractAll_cons_match (matchAt_canon h t)

theorem extract_segs {l : List Seg} (h : ∀ sg ∈ l, SegOK sg) :
    extract (segsText l) = segEntries l := by
  induction l with
  | nil => rfl
  | cons sg l ih =>
    have hok := h sg (by simp)
    have hrest := ih (fun x hx => h x (by simp [hx]))
    cases sg with
    | blk b =>
      have hb : Canon b := hok
      have htxt : segsText (Seg.blk b :: l) = b.render ++ segsText l := by
        simp [segsText, Seg.render]
      have hent : segEntries (Seg.blk b :: l) = b.entry :: segEntries l := by
        simp [segEntries]
      rw [htxt, hent]
      show ((extractAll (b.render ++ segsText l)).map capsToEntry) = _
      rw [extractAll_block hb]
      simp only [List.map_cons]
      exact congrArg (Block.entry b :: ·) hrest
    | frag f =>
      have hf : ∀ c ∈ f, isDig c = false := fun c hc => (hok c hc).2
      have htxt : segsText (Seg.frag f :: l) = f ++ segsText l := by
        simp [segsText, Seg.render]
      have hent : segEntries (Seg.frag f :: l) = segEntries l := by
        simp [segEntries]
      rw [htxt, hent]
      show ((extractAll (f ++ segsText l)).map capsToEntry) = _
      rw [extractAll_append_frag hf]
      exact hrest

/-! ## Texts with fewer than three newlines contain no match -/

theorem extractAll_nil_of_count {s : Chars} (h : s.count '\n' < 3) : extractAll s = [] := by
  induction s with
  | nil => rfl
  | cons c s' ih =>
    cases hm : matchAt (c :: s') with
    | some pr =>
      obtain ⟨caps, rest⟩ := pr
      have := (matchAt_eq_some hm).2
      omega
    | none =>
      rw [extractAll_cons_none hm]
      apply ih
      rw [List.count_cons] at h
      omega

theorem count_zero_of_digits {l : Chars} (h : ∀ c ∈ l, isDig c = true) :
    l.count '\n' = 0 := by
  rw [List.count_eq_zero]
  intro hin
  exact absurd (h '\n' hin) (by decide)

theorem renderNoNL_count {b : Block} (h : Canon b) : (b.renderNoNL).count '\n' = 2 := by
  obtain ⟨_hnumne, hnumd, _htitR, htitNL, _hurlR, hurlNL, _hscne, hscd, _habne, _habh, habNL⟩ := h
  have hnum : b.num.count '\n' = 0 := count_zero_of_digits hnumd
  have hsc : b.score.count '\n' = 0 := count_zero_of_digits hscd
  have htit : b.title.count '\n' = 0 := List.count_eq_zero.mpr htitNL
  have hurl : b.url.count '\n' = 0 := List.count_eq_zero.mpr hurlNL
  have hab : b.ab.count '\n' = 0 := List.count_eq_zero.mpr habNL
  have hA : litAbs.count '\n' = 1 := by decide
  have hR : litRel.count '\n' = 0 := by decide
  have e1 : (('\n' : Char) == '\n') = true := rfl
  have e2 : (('(' : Char) == '\n') = false := rfl
  have e3 : ((']' : Char) == '\n') = false := rfl
  have e4 : ((')' : Char) == '\n') = false := rfl
  have e5 : (('[' : Char) == '\n') = false := rfl
  have e6 : (('.' : Char) == '\n') = false := rfl
  have e7 : ((' ' : Char) == '\n') = false := rfl
  simp only [Block.renderNoNL, List.count_append, List.count_cons, hnum, hsc, htit, hurl,
    hab, hA, hR, e1, e2, e3, e4, e5, e6, e7, if_true, if_false]
  decide

/-! ## Idempotence of strip -/

theorem dw_idem (p : Char → Bool) (l : Chars) :
    (l.dropWhile p).dropWhile p = l.dropWhile p := by
  induction l with
  | nil => rfl
  | cons c t ih =>
    by_cases hp : p c = true
    · simp [List.dropWhile_cons, hp, ih]
    · simp [List.dropWhile_cons, hp]

theorem dropWhile_is_tail (p : Char → Bool) :
    ∀ l : Chars, ∃ u, l = u ++ l.dropWhile p := by
  intro l
  induction l with
  | nil => exact ⟨[], rfl⟩
  | cons c t ih =>
    by_cases hp : p c = true
    · obtain ⟨u, hu⟩ := ih
      refine ⟨c :: u, ?_⟩
      simp [List.dropWhile_cons, hp]
      exact hu
    · exact ⟨[], by simp [List.dropWhile_cons, hp]⟩

theorem dropWhile_head_not (p : Char → Bool) :
    ∀ l : Chars, l.dropWhile p = [] ∨ ∃ c t, l.dropWhile p = c :: t ∧ p c = false := by
  intro l
  induction l with
  | nil => exact Or.inl rfl
  | cons c t ih =>
    by_cases hp : p c = true
    · rw [List.dropWhile_cons, if_pos hp]
      exact ih
    · exact Or.inr ⟨c, t, by rw [List.dropWhile_cons, if_neg hp], by simpa using hp⟩

theorem pyStrip_idem (l : Chars) : pyStrip (pyStrip l) = pyStrip l := by
  have hy : pyStrip l = ((l.dropWhile pyWS).reverse.dropWhile pyWS).reverse := rfl
  have hyrev : (pyStrip l).reverse = (l.dropWhile pyWS).reverse.dropWhile pyWS := by
    rw [hy, List.reverse_reverse]
  obtain ⟨u, hu⟩ := dropWhile_is_tail pyWS (l.dropWhile pyWS).reverse
  have hpre : l.dropWhile pyWS = pyStrip l ++ u.reverse := by
    have := congrArg List.reverse hu
    simpa [List.reverse_append, hyrev] using this
  have hstep1 : (pyStrip l).dropWhile pyWS = pyStrip l := by
    rcases dropWhile_head_not pyWS l with hnil | ⟨c, t, hct, hc⟩
    · have hynil : pyStrip l = [] := by
        rw [hy, hnil]
        rfl
      rw [hynil]
      rfl
    · cases hyc : pyStrip l with
      | nil => rfl
      | cons d y' =>
        have hcd : c = d := by
          rw [hct, hyc] at hpre
          simp only [List.cons_append] at hpre
          injection hpre with h1 _
        rw [List.dropWhile_cons, if_neg (by rw [← hcd]; simp [hc])]
  show ((((pyStrip l).dropWhile pyWS).reverse).dropWhile pyWS).reverse = pyStrip l
  rw [hstep1, hyrev, dw_idem, ← hyrev, List.reverse_reverse]

theorem strS_fix (c : Chars) : strS (String.mk (pyStrip c)) = String.mk (pyStrip c) := by
  show String.mk (pyStrip (pyStrip c)) = String.mk (pyStrip c)
  rw [pyStrip_idem]

/-! ## Substring occurrence -/

theorem isPrefixOf_iff_exists {l : Chars} :
    ∀ {s : Chars}, l.isPrefixOf s = true ↔ ∃ t, s = l ++ t := by
  induction l with
  | nil => intro s; simp [List.isPrefixOf]
  | cons c l ih =>
    intro s
    cases s with
    | nil => simp [List.isPrefixOf]
    | cons d s' =>
      simp only [List.isPrefixOf, Bool.and_eq_true, beq_iff_eq]
      constructor
      · rintro ⟨rfl, hp⟩
        obtain ⟨t, rfl⟩ := ih.mp hp
        exact ⟨t, rfl⟩
      · rintro ⟨t, ht⟩
        injection ht with h1 h2
        exact ⟨h1.symm, ih.mpr ⟨t, h2⟩⟩

theorem occursB_iff {pat : Chars} :
    ∀ {l : Chars}, occursB pat l = true ↔ occursIn pat l := by
  intro l
  induction l with
  | nil =>
    simp only [occursB, occursIn, List.isEmpty_iff]
    constructor
    · rintro rfl
      exact ⟨[], [], rfl⟩
    · rintro ⟨u, v, h⟩
      have hlen := congrArg List.length h
      simp only [List.length_nil, List.length_append] at hlen
      have hp0 : pat.length = 0 := by omega
      exact List.length_eq_zero.mp hp0
  | cons c t ih =>
    simp only [occursB, Bool.or_eq_true]
    constructor
    · rintro (hp | ho)
      · obtain ⟨v, hv⟩ := isPrefixOf_iff_exists.mp hp
        exact ⟨[], v, by simp [hv]⟩
      · obtain ⟨u, v, huv⟩ := ih.mp ho
        exact ⟨c :: u, v, by simp [huv]⟩
    · rintro ⟨u, v, huv⟩
      cases u with
      | nil =>
        left
        exact isPrefixOf_iff_exists.mpr ⟨v, by simpa using huv⟩
      | cons c' u' =>
        right
        injection huv with h1 h2
        exact ih.mpr ⟨u', v, h2⟩

/-! ## JSON round trip -/

theorem jsonToEntry_entryToJson (e : Entry) : jsonToEntry (entryToJson e) = some e := by
  obtain ⟨t, li, r, a, so, y⟩ := e
  cases y <;> rfl

/-! ## Stability of the relevance sort -/

theorem filter_orderedInsert (v : Int) (a : Entry) :
    ∀ l : List Entry,
      (List.orderedInsert relGE a l).filter (fun e => e.relevance == v) =
        ((a :: l).filter (fun e => e.relevance == v)) := by
  intro l
  induction l with
  | nil => rfl
  | cons b l ih =>
    by_cases hr : relGE a b
    · rw [List.orderedInsert, if_pos hr]
    · rw [List.orderedInsert, if_neg hr]
      cases hpa : (a.relevance == v) with
      | true =>
        cases hpb : (b.relevance == v) with
        | true =>
          exfalso
          apply hr
          have ha : a.relevance = v := by simpa using hpa
          have hb : b.relevance = v := by simpa using hpb
          show b.relevance ≤ a.relevance
          rw [ha, hb]
        | false => simp [List.filter_cons, hpa, hpb, ih]
      | false =>
        cases hpb : (b.relevance == v) with
        | true => simp [List.filter_cons, hpa, hpb, ih]
        | false => simp [List.filter_cons, hpa, hpb, ih]

theorem filter_sortByRelevance (v : Int) (l : List Entry) :
    (sortByRelevance l).filter (fun e => e.relevance == v) =
      l.filter (fun e => e.relevance == v) := by
  induction l with
  | nil => rfl
  | cons a l ih =>
    show ((List.insertionSort relGE l).orderedInsert relGE a).filter _ = _
    rw [filter_orderedInsert v a]
    have ih' : (List.insertionSort relGE l).filter (fun e => e.relevance == v) =
        l.filter (fun e => e.relevance == v) := ih
    cases hpa : (a.relevance == v) with
    | true => simp [List.filter_cons, hpa, ih']
    | false => simp [List.filter_cons, hpa, ih']

/-! ## Occurrence helpers -/

theorem occursIn_append_right {pat : Chars} (u : Chars) {v : Chars} (h : occursIn pat v) :
    occursIn pat (u ++ v) := by
  obtain ⟨a, b, hab⟩ := h
  exact ⟨u ++ a, b, by simp [hab, List.append_assoc]⟩

/-! ## Claims -/

/-- C1: for every simulated collaborator failure, `gemini_scholar_search`
returns exactly one record, with relevance 0, empty link and abstract,
source `"gemini"`, and a title containing the error detail; being a total
function of the outcome, it propagates no exception. -/
theorem c1_error_fallback (e : String) :
    ∃ rec : Entry, geminiScholarSearch (.error e) = [rec] ∧ rec.relevance = 0 ∧
      rec.link = "" ∧ rec.abstract = "" ∧ rec.source = "gemini" ∧
      occursIn e.data rec.title.data := by
  refine ⟨_, rfl, rfl, rfl, rfl, rfl, ?_⟩
  exact ⟨"Gemini Error: ".data, [], by simp [String.data_append]⟩

set_option maxRecDepth 8000 in
/-- C2 counterexample: two fragments, each of which alone yields no
record (so each is a non-conforming fragment), concatenate into a text
from which the extractor parses one record; with k = 0 conforming blocks
and j = 2 fragments the claim demands an empty result, but the length
is 1. -/
theorem c2_counterexample :
    geminiScholarSearch (.ok "1. [A](u)\n") = [] ∧
    geminiScholarSearch (.ok "**Relevance:** 5/10\n**Abstract:** x\n") = [] ∧
    (geminiScholarSearch
      (.ok ("1. [A](u)\n" ++ "**Relevance:** 5/10\n**Abstract:** x\n"))).length = 1 := by
  refine ⟨by decide, by decide, by decide⟩

/-- C2 (amended): for a response assembled from canonical conforming
blocks interleaved with malformed fragments that are ASCII and contain
no decimal digit, the extractor returns exactly the blocks' records, in
their original left-to-right order, ignoring the fragments; in
particular zero blocks yield the empty sequence.  (Without the side
conditions, fragments can seed or merge matches — adjacent fragments can
even concatenate into a conforming block, as the counterexample shows —
and a fragment holding a non-ASCII decimal digit could start a real
match this ASCII digit model would miss.) -/
theorem c2_tolerant_extraction {segs : List Seg} (h : ∀ sg ∈ segs, SegOK sg) :
    geminiScholarSearch (.ok (String.mk (segsText segs))) = segEntries segs :=
  extract_segs h

set_option maxRecDepth 8000 in
theorem c2_tolerant_extraction_witness :
    geminiScholarSearch (.ok (String.mk (segsText
      [Seg.frag "noise ".data,
       Seg.blk ⟨['1'], "T".data, "u".data, ['7'], "A".data⟩,
       Seg.frag "garbage [](\n".data,
       Seg.blk ⟨['2'], "S".data, "v".data, ['3'], "B".data⟩]))) =
      segEntries
        [Seg.frag "noise ".data,
         Seg.blk ⟨['1'], "T".data, "u".data, ['7'], "A".data⟩,
         Seg.frag "garbage [](\n".data,
         Seg.blk ⟨['2'], "S".data, "v".data, ['3'], "B".data⟩] := by
  apply c2_tolerant_extraction
  intro sg hsg
  simp only [List.mem_cons, List.not_mem_nil, or_false] at hsg
  rcases hsg with rfl | rfl | rfl | rfl
  · show ∀ c ∈ "noise ".data, c.toNat < 128 ∧ isDig c = false
    decide
  · show Canon _
    decide
  · show ∀ c ∈ "garbage [](\n".data, c.toNat < 128 ∧ isDig c = false
    decide
  · show Canon _
    decide

set_option maxRecDepth 8000 in
/-- C3 counterexample: the score group `(\d+)` is neither bounded by 10
nor kept away from 0.  The text `11/10` parses into a record whose
relevance is 11 > 10, falsifying the claimed [0,10] invariant; and the
text `0/10` parses (on the success path: note the block's own title and
abstract, not an error record) into a record with relevance 0,
falsifying the claim that 0 is reserved for error records. -/
theorem c3_counterexample :
    (∃ rec, rec ∈ geminiScholarSearch
        (.ok "1. [T](u)\n**Relevance:** 11/10\n**Abstract:** a\n") ∧
      10 < rec.relevance) ∧
    (∃ rec, rec ∈ geminiScholarSearch
        (.ok "1. [T](u)\n**Relevance:** 0/10\n**Abstract:** a\n") ∧
      rec.relevance = 0 ∧ rec.title = "T" ∧ rec.abstract = "a") :=
  ⟨⟨⟨"T", "u", 11, "a", "gemini", none⟩, by decide, by decide⟩,
   ⟨⟨"T", "u", 0, "a", "gemini", none⟩, by decide, by decide, by decide, by decide⟩⟩

/-- C3 (amended): every record produced by either path carries a
nonnegative integer relevance and the fixed source tag; the error path's
record has relevance exactly 0; and every record of the success path
comes from a match's captures, with relevance equal to `int` of the
matched score digits.  That parsed integer is not otherwise constrained:
the counterexample shows it may exceed 10 and may be 0. -/
theorem c3_relevance_nonneg (out : Except String String) :
    (∀ rec ∈ geminiScholarSearch out, 0 ≤ rec.relevance ∧ rec.source = "gemini") ∧
    (∀ e, out = .error e → ∀ rec ∈ geminiScholarSearch out, rec.relevance = 0) ∧
    (∀ t, out = .ok t → ∀ rec ∈ geminiScholarSearch out,
      ∃ caps ∈ extractAll t.data, rec = capsToEntry caps ∧
        rec.relevance = (digitsVal caps.2.2.1 : Int)) := by
  refine ⟨?_, ?_, ?_⟩
  · intro rec hrec
    cases out with
    | error e =>
      simp only [geminiScholarSearch, List.mem_singleton] at hrec
      subst hrec
      exact ⟨le_refl 0, rfl⟩
    | ok t =>
      have hmem : rec ∈ (extractAll t.data).map capsToEntry := hrec
      obtain ⟨caps, _, hc⟩ := List.mem_map.mp hmem
      subst hc
      exact ⟨Int.natCast_nonneg _, rfl⟩
  · intro e he rec hrec
    subst he
    simp only [geminiScholarSearch, List.mem_singleton] at hrec
    subst hrec
    rfl
  · intro t ht rec hrec
    subst ht
    have hmem : rec ∈ (extractAll t.data).map capsToEntry := hrec
    obtain ⟨caps, hin, hc⟩ := List.mem_map.mp hmem
    subst hc
    exact ⟨caps, hin, rfl, rfl⟩

set_option maxRecDepth 8000 in
theorem c3_relevance_nonneg_witness :
    (0 ≤ (⟨"Gemini Error: boom", "", 0, "", "gemini", none⟩ : Entry).relevance ∧
      (⟨"Gemini Error: boom", "", 0, "", "gemini", none⟩ : Entry).source = "gemini") ∧
    (⟨"Gemini Error: boom", "", 0, "", "gemini", none⟩ : Entry).relevance = 0 ∧
    (∃ caps ∈ extractAll "1. [T](u)\n**Relevance:** 7/10\n**Abstract:** a\n".data,
      (⟨"T", "u", 7, "a", "gemini", none⟩ : Entry) = capsToEntry caps ∧
      (⟨"T", "u", 7, "a", "gemini", none⟩ : Entry).relevance = (digitsVal caps.2.2.1 : Int)) :=
  ⟨(c3_relevance_nonneg (.error "boom")).1 _ (by decide),
   (c3_relevance_nonneg (.error "boom")).2.1 "boom" rfl _ (by decide),
   (c3_relevance_nonneg (.ok "1. [T](u)\n**Relevance:** 7/10\n**Abstract:** a\n")).2.2
     "1. [T](u)\n**Relevance:** 7/10\n**Abstract:** a\n" rfl _ (by decide)⟩

/-- C4: every record the extractor produces has title, link and abstract
invariant under stripping (they were stripped at construction); a record
whose link is empty keeps the empty string, and the `#` anchor appears
only in the Markdown formatter's output, which otherwise embeds the
link verbatim. -/
theorem c4_strip_and_anchor :
    (∀ (t : String) (rec : Entry), rec ∈ geminiScholarSearch (.ok t) →
      rec.title = strS rec.title ∧ rec.link = strS rec.link ∧
        rec.abstract = strS rec.abstract) ∧
    (∀ (idx : Nat) (e : Entry), e.link = "" →
      occursIn "](#)".data (mdEntry idx e).data) ∧
    (∀ (idx : Nat) (e : Entry), e.link ≠ "" →
      occursIn ("](" ++ e.link ++ ")").data (mdEntry idx e).data) := by
  refine ⟨?_, ?_, ?_⟩
  · intro t rec hrec
    have hmem : rec ∈ (extractAll t.data).map capsToEntry := hrec
    obtain ⟨caps, _, hc⟩ := List.mem_map.mp hmem
    subst hc
    exact ⟨(strS_fix caps.1).symm, (strS_fix caps.2.1).symm, (strS_fix caps.2.2.2).symm⟩
  · intro idx e h
    unfold mdEntry
    rw [h, if_pos rfl]
    refine ⟨(toString idx).data ++ ". [".data ++ e.title.data,
      "\n**Relevance:** ".data ++ (toString e.relevance).data ++ "/10\n".data ++
        (match e.year with
          | some y => if y = 0 then "" else "**Year:** " ++ toString y ++ "\n"
          | none => "").data ++ "**Abstract:** ".data ++ e.abstract.data ++ "\n".data, ?_⟩
    simp [String.data_append]
  · intro idx e h
    unfold mdEntry
    rw [if_neg h]
    refine ⟨(toString idx).data ++ ". [".data ++ e.title.data,
      "\n**Relevance:** ".data ++ (toString e.relevance).data ++ "/10\n".data ++
        (match e.year with
          | some y => if y = 0 then "" else "**Year:** " ++ toString y ++ "\n"
          | none => "").data ++ "**Abstract:** ".data ++ e.abstract.data ++ "\n".data, ?_⟩
    simp [String.data_append]

set_option maxRecDepth 8000 in
theorem c4_strip_and_anchor_witness :
    ((capsToEntry (" T ".data, "".data, ['5'], " a".data)).title =
        strS (capsToEntry (" T ".data, "".data, ['5'], " a".data)).title ∧
      (capsToEntry (" T ".data, "".data, ['5'], " a".data)).link =
        strS (capsToEntry (" T ".data, "".data, ['5'], " a".data)).link ∧
      (capsToEntry (" T ".data, "".data, ['5'], " a".data)).abstract =
        strS (capsToEntry (" T ".data, "".data, ['5'], " a".data)).abstract) ∧
    occursIn "](#)".data
      (mdEntry 1 (capsToEntry (" T ".data, "".data, ['5'], " a".data))).data ∧
    occursIn ("](" ++ "u" ++ ")").data (mdEntry 1 ⟨"T", "u", 5, "a", "gemini", none⟩).data :=
  ⟨c4_strip_and_anchor.1 "1. [ T ]()\n**Relevance:** 5/10\n**Abstract:** a\n"
      (capsToEntry (" T ".data, "".data, ['5'], " a".data)) (by decide),
   c4_strip_and_anchor.2.1 1 (capsToEntry (" T ".data, "".data, ['5'], " a".data)) (by decide),
   c4_strip_and_anchor.2.2 1 ⟨"T", "u", 5, "a", "gemini", none⟩ (by decide)⟩

/-- C5: sorting in mode `relevance` is a permutation of the input,
sorted by descending relevance, and stable: for every relevance value
the records carrying it appear in their original relative order. -/
theorem c5_sort_relevance (l : List Entry) :
    (applySort .relevance l).Perm l ∧
    List.Sorted relGE (applySort .relevance l) ∧
    (∀ v : Int, (applySort .relevance l).filter (fun e => e.relevance == v) =
      l.filter (fun e => e.relevance == v)) :=
  ⟨List.perm_insertionSort relGE l, List.sorted_insertionSort relGE l,
   fun v => filter_sortByRelevance v l⟩

/-- C6: in mode `retrieved` the sorting step of `main` performs no
reordering: the sequence reaching the formatter is the extraction
sequence unchanged. -/
theorem c6_retrieved_id (l : List Entry) : applySort .retrieved l = l := rfl

set_option maxRecDepth 8000 in
/-- C7 counterexample: the prompt spells its grammar placeholder
`<number>`, not `<n>`, so the claimed verbatim grammar line
`<n>. [<Title>](<URL>)` does not occur in the prompt. -/
theorem c7_counterexample :
    ¬ occursIn "<n>. [<Title>](<URL>)".data (buildPrompt "q" 5).data := by
  have hB : occursB "<n>. [<Title>](<URL>)".data (buildPrompt "q" 5).data = false := by decide
  intro h
  have hT := occursB_iff.mpr h
  rw [hB] at hT
  exact Bool.false_ne_true hT

set_option maxRecDepth 8000 in
/-- C7 (amended): for every non-empty query and positive count the
prompt builder is a total function whose output contains, verbatim, the
query, the decimal count, and the grammar lines
`<number>. [<Title>](<URL>)` / `**Relevance:** <score>/10` /
`**Abstract:** <text>` (the placeholder is `<number>`, not `<n>`). -/
theorem c7_prompt_contents (q : String) (n : Int) (_hq : q ≠ "") (_hn : 0 < n) :
    occursIn q.data (buildPrompt q n).data ∧
    occursIn (toString n).data (buildPrompt q n).data ∧
    occursIn
      "<number>. [<Title>](<URL>)\n**Relevance:** <score>/10\n**Abstract:** <text>".data
      (buildPrompt q n).data := by
  refine ⟨?_, ?_, ?_⟩
  · unfold buildPrompt
    refine ⟨"Search Google Scholar for recent academic studies related to the following query:\n'".data,
      "'.\nProvide the top ".data ++ (toString n).data ++
        " articles with this exact Markdown format:\n".data ++
        "<number>. [<Title>](<URL>)\n**Relevance:** <score>/10\n**Abstract:** <text>\n".data ++
        "Rate relevance from 1–10 where 10 is the most relevant.".data, ?_⟩
    simp [String.data_append]
  · unfold buildPrompt
    refine ⟨"Search Google Scholar for recent academic studies related to the following query:\n'".data ++
      q.data ++ "'.\nProvide the top ".data,
      " articles with this exact Markdown format:\n".data ++
        "<number>. [<Title>](<URL>)\n**Relevance:** <score>/10\n**Abstract:** <text>\n".data ++
        "Rate relevance from 1–10 where 10 is the most relevant.".data, ?_⟩
    simp [String.data_append]
  · unfold buildPrompt
    refine ⟨"Search Google Scholar for recent academic studies related to the following query:\n'".data ++
      q.data ++ "'.\nProvide the top ".data ++ (toString n).data ++
        " articles with this exact Markdown format:\n".data,
      "\n".data ++ "Rate relevance from 1–10 where 10 is the most relevant.".data, ?_⟩
    simp [String.data_append]

theorem c7_prompt_contents_witness :
    occursIn "q".data (buildPrompt "q" 5).data ∧
    occursIn (toString (5 : Int)).data (buildPrompt "q" 5).data ∧
    occursIn
      "<number>. [<Title>](<URL>)\n**Relevance:** <score>/10\n**Abstract:** <text>".data
      (buildPrompt "q" 5).data :=
  c7_prompt_contents "q" 5 (by decide) (by decide)

/-- C8: parsing the JSON document back reconstructs the record sequence
field for field, in order: the round trip through the serializer is the
identity on record sequences. -/
theorem c8_json_round_trip (l : List Entry) : parseJsonDoc (writeJsonDoc l) = some l := by
  induction l with
  | nil => rfl
  | cons e l ih =>
    have ih' : decodeEntries (l.map entryToJson) = some l := ih
    show decodeEntries ((e :: l).map entryToJson) = some (e :: l)
    simp [decodeEntries, jsonToEntry_entryToJson, ih']

/-- C9: the CSV output is the exact header row
`title,link,relevance,abstract,source` (CRLF-terminated) followed by one
rendered row per record in sequence order, and a field missing from a
record's dict renders as the empty string. -/
theorem c9_csv_shape (rows : List Row) :
    writeCsv rows = "title,link,relevance,abstract,source\r\n" ++
      String.join (rows.map csvRowLine) ∧
    (rows.map csvRowLine).length = rows.length ∧
    (∀ r ∈ rows, ∀ k : String, List.lookup k r = none →
      csvQuote (cvalStr (rowGet r k)) = "") := by
  refine ⟨rfl, by simp, ?_⟩
  intro r _ k hk
  show csvQuote (cvalStr ((List.lookup k r).getD (.s ""))) = ""
  rw [hk]
  rfl

theorem c9_csv_shape_witness :
    csvQuote (cvalStr (rowGet [("title", CVal.s "T")] "link")) = "" :=
  (c9_csv_shape [[("title", CVal.s "T")]]).2.2 [("title", CVal.s "T")] (by simp) "link"
    (by decide)

/-- C10: a block conforming in every field yields a record only when its
abstract line is newline-terminated: without the trailing newline the
rendered block has only two newlines while every match needs three, so
it is dropped; with the newline it yields exactly its record. -/
theorem c10_trailing_newline_required {b : Block} (h : Canon b) :
    extract b.renderNoNL = [] ∧ extract b.render = [b.entry] := by
  constructor
  · show ((extractAll b.renderNoNL).map capsToEntry) = []
    rw [extractAll_nil_of_count (by rw [renderNoNL_count h]; omega)]
    rfl
  · have hall := extractAll_block h []
    rw [List.append_nil] at hall
    show ((extractAll b.render).map capsToEntry) = [b.entry]
    rw [hall]
    rfl

set_option maxRecDepth 8000 in
theorem c10_trailing_newline_required_witness :
    extract (Block.renderNoNL ⟨['1'], "T".data, "u".data, ['5'], "a".data⟩) = [] ∧
    extract (Block.render ⟨['1'], "T".data, "u".data, ['5'], "a".data⟩) =
      [Block.entry ⟨['1'], "T".data, "u".data, ['5'], "a".data⟩] :=
  c10_trailing_newline_required (by decide)
